import Mathlib

/-!
Shallow embedding of the two Gibbs samplers of `e_step_gibbs.py`
(`LogitNormalGibbs_BK`, bulk data, and `LogitNormalGibbs_SC`, single cells),
with theorems checking the specification's claims about them.

Modelling conventions:
* numpy arrays become functions out of `Fin`; machine floats become `ℚ`
  (exact arithmetic).  Where non-finite float values (inf/NaN) matter —
  only in the 2x2 covariance computation of `draw_kappa_tau` — values live
  in `Option ℚ`, with `none` standing for a non-finite float.
* calls to numpy random generators (`np.random.binomial`, `dirichlet`,
  `multinomial`, `multivariate_normal`, and the Polya-Gamma pool) are
  abstracted by oracle arguments supplying the drawn values; facts about a
  distribution's support (a Dirichlet draw sums to 1, a multinomial draw
  sums to its count argument) become hypotheses where a theorem needs them.
* the transcendental functions `scipy.special.expit` and `np.log` are
  abstracted as function arguments `expit lg : ℚ → ℚ`; every claim that
  mentions them is structural, so nothing about their analytic behaviour
  is assumed.
-/

namespace URSM

/-- The four sufficient-statistics accumulators of `LogitNormalGibbs_BK`
(the dict `self.suff_stats`, source lines 59-66). -/
structure BKSuff (M N K : ℕ) where
  exp_Zik : Fin N → Fin K → ℚ
  exp_Zjk : Fin M → Fin K → ℚ
  exp_logW : Fin K → Fin M → ℚ
  exp_W : Fin K → Fin M → ℚ

/-- The state of a `LogitNormalGibbs_BK` object: the data `BKexpr` and the
optional marker list (fixed after construction), the parameters `A`, `alpha`
(replaced only by `update_parameters`), the latent variables `W`, `Z` with
the cached product `AW`, and the accumulators. -/
structure BK (M N K : ℕ) where
  BKexpr : Fin M → Fin N → ℕ
  iMarkers : Option (List (Fin N × Fin K))
  A : Fin N → Fin K → ℚ
  alpha : Fin K → ℚ
  W : Fin K → Fin M → ℚ
  Z : Fin M → Fin N → Fin K → ℚ
  AW : Fin N → Fin M → ℚ
  suff : BKSuff M N K

variable {M N K : ℕ}

/-- Source lines 48-50: the loop body `self.Z[:, i, k] = self.BKexpr[:, i] +
self.alpha[k]` applied to each listed marker pair in order. -/
def applyMarkers (BKexpr : Fin M → Fin N → ℕ) (alpha : Fin K → ℚ) :
    List (Fin N × Fin K) → (Fin M → Fin N → Fin K → ℚ) →
    Fin M → Fin N → Fin K → ℚ
  | [], Z => Z
  | m :: ms, Z =>
    applyMarkers BKexpr alpha ms
      (fun j i k => if i = m.1 ∧ k = m.2 then (BKexpr j i : ℚ) + alpha k else Z j i k)

/-- `LogitNormalGibbs_BK.init_gibbs` (source lines 39-55): `Z` starts at
zero; with markers, the marked columns are seeded and `W` is the
column-normalized gene-marginal sum of `Z`; without markers `W` is uniform
`1/K`. -/
def BK.init_gibbs (bk : BK M N K) : BK M N K :=
  match bk.iMarkers with
  | none =>
    { bk with Z := fun _ _ _ => 0, W := fun _ _ => 1 / (K : ℚ) }
  | some ms =>
    let Z' := applyMarkers bk.BKexpr bk.alpha ms (fun _ _ _ => 0)
    let Wpre : Fin K → Fin M → ℚ := fun k j => ∑ i, Z' j i k
    { bk with Z := Z', W := fun k j => Wpre k j / ∑ x, Wpre x j }

/-- The all-zero accumulator record. -/
def BK.zeroSuff : BKSuff M N K :=
  { exp_Zik := fun _ _ => 0
    exp_Zjk := fun _ _ => 0
    exp_logW := fun _ _ => 0
    exp_W := fun _ _ => 0 }

/-- `LogitNormalGibbs_BK.init_suffStats` (source lines 59-66). -/
def BK.init_suffStats (bk : BK M N K) : BK M N K :=
  { bk with suff := BK.zeroSuff }

/-- `(self.Z).sum(axis=0)`: the statistic accumulated into `exp_Zik`. -/
def BK.statZik (bk : BK M N K) : Fin N → Fin K → ℚ := fun i k => ∑ j, bk.Z j i k

/-- `(self.Z).sum(axis=1)`: the statistic accumulated into `exp_Zjk`. -/
def BK.statZjk (bk : BK M N K) : Fin M → Fin K → ℚ := fun j k => ∑ i, bk.Z j i k

/-- `LogitNormalGibbs_BK.update_suffStats` (source lines 69-78): each
accumulator gains its current statistic divided by `sample`; `np.log` is the
abstracted `lg`. -/
def BK.update_suffStats (lg : ℚ → ℚ) (sample : ℕ) (bk : BK M N K) : BK M N K :=
  { bk with suff :=
    { exp_Zik := fun i k => bk.suff.exp_Zik i k + BK.statZik bk i k / (sample : ℚ)
      exp_Zjk := fun j k => bk.suff.exp_Zjk j k + BK.statZjk bk j k / (sample : ℚ)
      exp_logW := fun k j => bk.suff.exp_logW k j + lg (bk.W k j) / (sample : ℚ)
      exp_W := fun k j => bk.suff.exp_W k j + bk.W k j / (sample : ℚ) } }

/-- `LogitNormalGibbs_BK.update_parameters` (source lines 81-84): install
(value copies of) the new `A` and `alpha`; nothing else is touched. -/
def BK.update_parameters (bk : BK M N K) (A' : Fin N → Fin K → ℚ)
    (alpha' : Fin K → ℚ) : BK M N K :=
  { bk with A := A', alpha := alpha' }

/-- `LogitNormalGibbs_BK.draw_W` (source lines 140-146): each column of `W`
is replaced by a Dirichlet draw (with parameter `alpha + Z.sum(axis=1)[j]`,
abstracted here by the oracle `r`), then the cache `AW = A . W` is rebuilt. -/
def BK.draw_W (bk : BK M N K) (r : Fin M → Fin K → ℚ) : BK M N K :=
  let W' : Fin K → Fin M → ℚ := fun k j => r j k
  { bk with W := W', AW := fun i j => ∑ k, bk.A i k * W' k j }

/-- `LogitNormalGibbs_BK.draw_Z` (source lines 132-138): every fibre
`Z[j,i,:]` is replaced by a multinomial draw with count `BKexpr[j,i]` and
probabilities `W[:,j]*A[i,:]/AW[i,j]`, abstracted by the oracle `r`. -/
def BK.draw_Z (bk : BK M N K) (r : Fin M → Fin N → Fin K → ℚ) : BK M N K :=
  { bk with Z := r }

/-- The per-sweep randomness of the bulk chain: the Dirichlet outcomes for
`draw_W` and the multinomial outcomes for `draw_Z`. -/
structure BKRand (M N K : ℕ) where
  rW : Fin M → Fin K → ℚ
  rZ : Fin M → Fin N → Fin K → ℚ

/-- `LogitNormalGibbs_BK.gibbs_cycle` (source lines 121-129): `draw_W` first,
then `draw_Z`. -/
def BK.gibbs_cycle (bk : BK M N K) (r : BKRand M N K) : BK M N K :=
  BK.draw_Z (BK.draw_W bk r.rW) r.rZ

/-- The unnormalized row update of `get_nmf_W` (source line 160-161):
`W[k,:] * (BKexpr * A[:,k] / AW.T).sum(axis=1) + alpha[k] - 1`, with
`AW` the cached product taken from `W` before the update. -/
def BK.nmfPre (bk : BK M N K) : Fin K → Fin M → ℚ :=
  fun k j =>
    bk.W k j * (∑ i, (bk.BKexpr j i : ℚ) * bk.A i k / ∑ x, bk.A i x * bk.W x j)
      + bk.alpha k - 1

/-- `LogitNormalGibbs_BK.get_nmf_W` (source lines 157-164): set
`AW = A . W`, apply the multiplicative update to every row of `W`, then
renormalize every column of `W` to sum 1. -/
def BK.get_nmf_W (bk : BK M N K) : BK M N K :=
  { bk with
    AW := fun i j => ∑ x, bk.A i x * bk.W x j
    W := fun k j => BK.nmfPre bk k j / ∑ x, BK.nmfPre bk x j }

/-- `LogitNormalGibbs_BK.draw_Z_mean` (source lines 149-155): recompute
`AW = A . W`, then set `Z[j,i,k]` to its exact conditional expectation
`W[k,j]*A[i,k]*BKexpr[j,i]/AW[i,j]`. -/
def BK.draw_Z_mean (bk : BK M N K) : BK M N K :=
  let AW' : Fin N → Fin M → ℚ := fun i j => ∑ x, bk.A i x * bk.W x j
  { bk with
    AW := AW'
    Z := fun j i k => bk.W k j * bk.A i k * (bk.BKexpr j i : ℚ) / AW' i j }

/-- `n` Gibbs sweeps, sweep `t` consuming `rand t`. -/
def BK.cycleIter (rand : ℕ → BKRand M N K) (bk : BK M N K) : ℕ → BK M N K
  | 0 => bk
  | n + 1 => BK.gibbs_cycle (BK.cycleIter rand bk n) (rand n)

/-- The post-burn-in sampling loop of `gibbs` (source lines 113-117), with a
ghost counter of `update_suffStats` calls.  Post-burn-in sweep `g` consumes
`rand (burnin + g)`; after it, the accumulators are updated iff
`g % thin = 0`. -/
def BK.sampleLoop (lg : ℚ → ℚ) (rand : ℕ → BKRand M N K)
    (burnin sample thin : ℕ) (bkb : BK M N K) : ℕ → BK M N K × ℕ
  | 0 => (bkb, 0)
  | g + 1 =>
    if g % thin = 0 then
      (BK.update_suffStats lg sample
          (BK.gibbs_cycle (BK.sampleLoop lg rand burnin sample thin bkb g).1
            (rand (burnin + g))),
        (BK.sampleLoop lg rand burnin sample thin bkb g).2 + 1)
    else
      (BK.gibbs_cycle (BK.sampleLoop lg rand burnin sample thin bkb g).1
          (rand (burnin + g)),
        (BK.sampleLoop lg rand burnin sample thin bkb g).2)

/-- `LogitNormalGibbs_BK.gibbs` (source lines 90-117), with a ghost counter
of `update_suffStats` calls.  `init_suffStats` runs first in both modes;
`mean_approx=true` performs `get_nmf_W`, `draw_Z_mean`,
`update_suffStats(sample=1)`; `mean_approx=false` runs `burnin` sweeps and
then the thinned sampling loop for `sample*thin` sweeps. -/
def BK.gibbs (bk : BK M N K) (burnin sample thin : ℕ) (mean_approx : Bool)
    (rand : ℕ → BKRand M N K) (lg : ℚ → ℚ) : BK M N K × ℕ :=
  let b0 := BK.init_suffStats bk
  if mean_approx then
    (BK.update_suffStats lg 1 (BK.draw_Z_mean (BK.get_nmf_W b0)), 1)
  else
    BK.sampleLoop lg rand burnin sample thin (BK.cycleIter rand b0 burnin)
      (sample * thin)

/-!  ## The single-cell sampler `LogitNormalGibbs_SC` -/

/-- The state of a `LogitNormalGibbs_SC` object: the data `SCexpr`, `G`
(fixed after construction), the parameters `A`, `pkappa`, `ptau` (each a
(mean, variance) pair, replaced only by `update_parameters`), and the latent
variables `kappa`, `tau`, `S`, `w`, `psi` with the cache `sum_AS`.
The sufficient-statistics accumulators of this class play no part in any
claim and are omitted. -/
structure SC (L N K : ℕ) where
  SCexpr : Fin L → Fin N → ℕ
  G : Fin L → Fin K
  A : Fin N → Fin K → ℚ
  pkappa : ℚ × ℚ
  ptau : ℚ × ℚ
  kappa : Fin L → ℚ
  tau : Fin L → ℚ
  S : Fin L → Fin N → ℕ
  w : Fin L → Fin N → ℚ
  psi : Fin L → Fin N → ℚ
  sum_AS : Fin L → ℚ

variable {L : ℕ}

/-- `self.SCrd = SCexpr.sum(axis=1)` (source line 185): read depth of cell
`l`. -/
def SC.SCrd (sc : SC L N K) (l : Fin L) : ℕ := ∑ i, sc.SCexpr l i

/-- `self.izero = np.where(self.SCexpr==0)` (source line 192): the
coordinates with zero observed expression, in row-major order. -/
def SC.zeroList (sc : SC L N K) : List (Fin L × Fin N) :=
  (List.finRange L).flatMap fun l =>
    ((List.finRange N).filter fun i => sc.SCexpr l i == 0).map fun i => (l, i)

/-- `LogitNormalGibbs_SC.init_gibbs` (source lines 212-225): `kappa`, `tau`
start at the prior means, `S` at fair coin flips (the oracle `coin`) forced
to 1 wherever `SCexpr > 0`, `psi` is computed from the fresh `kappa`, `tau`,
`w` is all ones and `sum_AS` is the row sum of `A[:,G]*S`. -/
def SC.init_gibbs (sc : SC L N K) (coin : Fin L → Fin N → ℕ) : SC L N K :=
  let S' : Fin L → Fin N → ℕ := fun l i => if 0 < sc.SCexpr l i then 1 else coin l i
  { sc with
    kappa := fun _ => sc.pkappa.1
    tau := fun _ => sc.ptau.1
    S := S'
    psi := fun l i => sc.pkappa.1 + sc.ptau.1 * sc.A i (sc.G l)
    w := fun _ _ => 1
    sum_AS := fun l => ∑ i, sc.A i (sc.G l) * (S' l i : ℚ) }

/-- `LogitNormalGibbs_SC.update_psi` (source lines 314-316):
`psi = (kappa + tau * A[:,G]).T`. -/
def SC.update_psi (sc : SC L N K) : SC L N K :=
  { sc with psi := fun l i => sc.kappa l + sc.tau l * sc.A i (sc.G l) }

/-- `LogitNormalGibbs_SC.update_parameters` (source lines 273-280): install
the new `A`, `pkappa`, `ptau`, then recompute `psi` (from the unchanged
`kappa`, `tau`) and `sum_AS` (from the unchanged `S`) under the new `A`. -/
def SC.update_parameters (sc : SC L N K) (A' : Fin N → Fin K → ℚ)
    (pk' pt' : ℚ × ℚ) : SC L N K :=
  { sc with
    A := A'
    pkappa := pk'
    ptau := pt'
    psi := fun l i => sc.kappa l + sc.tau l * A' i (sc.G l)
    sum_AS := fun l => ∑ i, A' i (sc.G l) * (sc.S l i : ℚ) }

/-- `LogitNormalGibbs_SC.draw_w` (source lines 318-323): every row of `w`
is refilled with Polya-Gamma draws `PG(1, psi[l,:])`, abstracted by the
oracle `rW`. -/
def SC.draw_w (sc : SC L N K) (rW : Fin L → Fin N → ℚ) : SC L N K :=
  { sc with w := rW }

/-- The body of the `draw_S` loop (source lines 330-342) at coordinate
`li`, with the Bernoulli outcome `z`: `sum_other = sum_AS[l] - A_curr*S[l,i]`,
the new `S[l,i]` is the draw, and `sum_AS[l]` becomes
`sum_other + A_curr*S[l,i]` with the new `S[l,i]`. -/
def SC.draw_S_step (sc : SC L N K) (z : ℕ) (li : Fin L × Fin N) : SC L N K :=
  let A_curr := sc.A li.2 (sc.G li.1)
  let sum_other := sc.sum_AS li.1 - A_curr * (sc.S li.1 li.2 : ℚ)
  { sc with
    S := fun l i => if l = li.1 ∧ i = li.2 then z else sc.S l i
    sum_AS := fun l =>
      if l = li.1 then sum_other + A_curr * (z : ℚ) else sc.sum_AS l }

/-- The Bernoulli success probability computed for coordinate `(l, i)` by
`draw_S` (source lines 333-338): `expit(psi[l,i])` if `sum_other == 0`,
else `expit(psi[l,i] - SCrd[l]*log(1 + A_curr/sum_other))`. -/
def SC.draw_S_prob (expit lg : ℚ → ℚ) (sc : SC L N K) (l : Fin L)
    (i : Fin N) : ℚ :=
  let A_curr := sc.A i (sc.G l)
  let sum_other := sc.sum_AS l - A_curr * (sc.S l i : ℚ)
  if sum_other = 0 then expit (sc.psi l i)
  else expit (sc.psi l i - (sc.SCrd l : ℚ) * lg (1 + A_curr / sum_other))

/-- `LogitNormalGibbs_SC.draw_S` (source lines 326-342): fold the loop body
over the zero-expression coordinates; the Bernoulli outcomes are supplied by
the oracle `z`. -/
def SC.draw_S (sc : SC L N K) (z : Fin L → Fin N → ℕ) : SC L N K :=
  (SC.zeroList sc).foldl (fun st li => SC.draw_S_step st (z li.1 li.2) li) sc

/-- `draw_S` instrumented to also record, for each visited coordinate, the
Bernoulli success probability computed from the state at the moment of the
visit. -/
def SC.draw_S_trace (expit lg : ℚ → ℚ) (sc : SC L N K)
    (z : Fin L → Fin N → ℕ) : SC L N K × List ((Fin L × Fin N) × ℚ) :=
  (SC.zeroList sc).foldl
    (fun acc li =>
      (SC.draw_S_step acc.1 (z li.1 li.2) li,
        acc.2 ++ [(li, SC.draw_S_prob expit lg acc.1 li.1 li.2)]))
    (sc, [])

/-- `LogitNormalGibbs_SC.draw_kappa_tau` (source lines 345-377), state
effect only: for each cell the pair `(kappa[l], tau[l])` is replaced by a
bivariate Gaussian draw, abstracted by the oracle `rkt`.  The deterministic
mean/covariance computation feeding that draw is embedded separately below
as `ktOf`. -/
def SC.draw_kappa_tau (sc : SC L N K) (rkt : Fin L → ℚ × ℚ) : SC L N K :=
  { sc with kappa := fun l => (rkt l).1, tau := fun l => (rkt l).2 }

/-- The per-sweep randomness of the single-cell chain: Polya-Gamma outcomes
for `draw_w`, Bernoulli outcomes for `draw_S`, Gaussian outcomes for
`draw_kappa_tau`. -/
structure SCRand (L N : ℕ) where
  rW : Fin L → Fin N → ℚ
  rS : Fin L → Fin N → ℕ
  rkt : Fin L → ℚ × ℚ

/-- `LogitNormalGibbs_SC.gibbs_cycle` (source lines 307-312): `draw_w`,
`draw_S`, `draw_kappa_tau`, `update_psi`, in that order. -/
def SC.gibbs_cycle (sc : SC L N K) (r : SCRand L N) : SC L N K :=
  SC.update_psi (SC.draw_kappa_tau (SC.draw_S (SC.draw_w sc r.rW) r.rS) r.rkt)

/-- `n` sweeps of the single-cell chain, sweep `t` consuming `rand t`. -/
def SC.runCycles (rand : ℕ → SCRand L N) (sc : SC L N K) : ℕ → SC L N K
  | 0 => sc
  | n + 1 => SC.gibbs_cycle (SC.runCycles rand sc n) (rand n)

/-- The latent state reached after `n` sweeps of a
`LogitNormalGibbs_SC.gibbs` call (source lines 286-304): `gibbs` always
restarts the chain with `init_gibbs` and then runs `burnin + sample*thin`
sweeps; the interleaved accumulator updates do not touch the latent state. -/
def SC.gibbs_state (sc : SC L N K) (coin : Fin L → Fin N → ℕ)
    (rand : ℕ → SCRand L N) (n : ℕ) : SC L N K :=
  SC.runCycles rand (SC.init_gibbs sc coin) n

/-!  ## The deterministic 2x2 computation inside `draw_kappa_tau`

Values that a numpy float computation can turn non-finite live in
`Option ℚ`: `none` stands for inf or NaN.  numpy float division by zero
does not raise — it warns and yields a non-finite value — so the only
operation producing `none` from finite operands is division by zero. -/

/-- Non-finite-propagating addition. -/
def oadd : Option ℚ → Option ℚ → Option ℚ
  | some a, some b => some (a + b)
  | _, _ => none

/-- Non-finite-propagating subtraction. -/
def osub : Option ℚ → Option ℚ → Option ℚ
  | some a, some b => some (a - b)
  | _, _ => none

/-- Non-finite-propagating multiplication. -/
def omul : Option ℚ → Option ℚ → Option ℚ
  | some a, some b => some (a * b)
  | _, _ => none

/-- Non-finite-propagating division: a zero divisor yields a non-finite
value (numpy emits inf or NaN and continues). -/
def odiv : Option ℚ → Option ℚ → Option ℚ
  | some a, some b => if b = 0 then none else some (a / b)
  | _, _ => none

variable {n : ℕ}

/-- `offdiag = sum(self.w[l,:] * A_curr)` (source line 366). -/
def ktOffdiag (w Acol : Fin n → ℚ) : ℚ := ∑ i, w i * Acol i

/-- `diag[0] = sum(self.w[l,:]) + 1.0/self.pkappa[1]` (source line 367). -/
def ktDiag0 (w : Fin n → ℚ) (pk1 : ℚ) : Option ℚ :=
  oadd (some (∑ i, w i)) (odiv (some 1) (some pk1))

/-- `diag[1] = sum(self.w[l,:]*np.square(A_curr)) + 1.0/self.ptau[1]`
(source line 368). -/
def ktDiag1 (w Acol : Fin n → ℚ) (pt1 : ℚ) : Option ℚ :=
  oadd (some (∑ i, w i * Acol i ^ 2)) (odiv (some 1) (some pt1))

/-- `det = diag[0]*diag[1] - offdiag*offdiag` (source line 369). -/
def ktDet (w Acol : Fin n → ℚ) (pk1 pt1 : ℚ) : Option ℚ :=
  osub (omul (ktDiag0 w pk1) (ktDiag1 w Acol pt1))
    (omul (some (ktOffdiag w Acol)) (some (ktOffdiag w Acol)))

/-- The results of the deterministic part of one `draw_kappa_tau` loop
iteration (source lines 366-375): the precision entries, the determinant,
the four entries of `sigma_mat`, the bias vector `bP` and the posterior
mean `mP = sigma_mat . bP`. -/
structure KT where
  offdiag : ℚ
  diag0 : Option ℚ
  diag1 : Option ℚ
  det : Option ℚ
  s00 : Option ℚ
  s01 : Option ℚ
  s10 : Option ℚ
  s11 : Option ℚ
  b0 : Option ℚ
  b1 : Option ℚ
  m0 : Option ℚ
  m1 : Option ℚ
deriving DecidableEq

/-- The deterministic computation of one `draw_kappa_tau` loop iteration
(source lines 366-375): `sigma_mat` is `[[diag1,-offdiag],[-offdiag,diag0]]`
divided — unconditionally — by `det`, and `mP = sigma_mat . bP` with
`bP = [sum(S[l,:]) - N/2 + pkappa0/pkappa1, sum_AS[l] - 0.5 + ptau0/ptau1]`. -/
def ktOf (w Acol : Fin n → ℚ) (pk0 pk1 pt0 pt1 Ssum sumAS : ℚ) : KT :=
  let det := ktDet w Acol pk1 pt1
  let s00 := odiv (ktDiag1 w Acol pt1) det
  let s01 := odiv (some (-ktOffdiag w Acol)) det
  let s11 := odiv (ktDiag0 w pk1) det
  let b0 := oadd (some (Ssum - (n : ℚ) / 2)) (odiv (some pk0) (some pk1))
  let b1 := oadd (some (sumAS - 1 / 2)) (odiv (some pt0) (some pt1))
  { offdiag := ktOffdiag w Acol
    diag0 := ktDiag0 w pk1
    diag1 := ktDiag1 w Acol pt1
    det := det
    s00 := s00
    s01 := s01
    s10 := s01
    s11 := s11
    b0 := b0
    b1 := b1
    m0 := oadd (omul s00 b0) (omul s01 b1)
    m1 := oadd (omul s01 b0) (omul s11 b1) }

/-- The determinant computed by `draw_kappa_tau` for cell `l` from the
state `sc`. -/
def SC.ktDetAt (sc : SC L N K) (l : Fin L) : Option ℚ :=
  ktDet (sc.w l) (fun i => sc.A i (sc.G l)) sc.pkappa.2 sc.ptau.2

/-- The deterministic part of `draw_kappa_tau` for cell `l`, in an error
monad so that the claimed "fails with an error surfaced to the caller" is
expressible.  The source body (lines 345-377) contains no conditional and
no raise; numpy division by zero warns and continues, so the computation
always returns normally. -/
def SC.draw_kappa_tau_comp (sc : SC L N K) (l : Fin L) : Except String KT :=
  Except.ok (ktOf (sc.w l) (fun i => sc.A i (sc.G l)) sc.pkappa.1 sc.pkappa.2
    sc.ptau.1 sc.ptau.2 (∑ i, (sc.S l i : ℚ)) (sc.sum_AS l))

/-!  ## Attribute-level model of the bulk object's lifecycle

Python objects acquire attributes only when first assigned; reading a
missing attribute raises `AttributeError`.  The `LogitNormalGibbs_BK`
constructor (source lines 22-36) creates only data and parameters;
`init_gibbs` creates `self.Z` and `self.W`; the first `draw_W` (or
`get_nmf_W` / `draw_Z_mean`) creates `self.AW`; `init_suffStats` creates
`self.suff_stats`.  This coarse model records which of those exist. -/

/-- Which optional attributes of a `LogitNormalGibbs_BK` object exist:
`hasLatent` for `self.Z`/`self.W`, `hasAW` for `self.AW`, `hasSuff` for
`self.suff_stats`. -/
structure BKAttrs where
  hasLatent : Bool
  hasAW : Bool
  hasSuff : Bool
deriving DecidableEq

/-- A freshly constructed object: no latent state, no cache, no
accumulators. -/
def BKAttrs.new : BKAttrs := ⟨false, false, false⟩

/-- `init_gibbs` assigns `self.Z` and `self.W`. -/
def attrInitGibbs (a : BKAttrs) : BKAttrs := { a with hasLatent := true }

/-- `init_suffStats` assigns `self.suff_stats`. -/
def attrInitSuffStats (a : BKAttrs) : BKAttrs := { a with hasSuff := true }

/-- `draw_W` reads `self.Z` (line 142) and `self.W` (lines 144, 146)
unconditionally, then assigns `self.AW`. -/
def attrDrawW (a : BKAttrs) : Except String BKAttrs :=
  if a.hasLatent then Except.ok { a with hasAW := true }
  else Except.error ("AttributeError: Z")

/-- `draw_Z` reads `self.W`, `self.AW` and writes into `self.Z` inside its
loops (lines 134-138). -/
def attrDrawZ (a : BKAttrs) : Except String BKAttrs :=
  if a.hasLatent && a.hasAW then Except.ok a
  else Except.error ("AttributeError")

/-- `gibbs_cycle`: `draw_W` then `draw_Z`. -/
def attrCycle (a : BKAttrs) : Except String BKAttrs :=
  (attrDrawW a).bind attrDrawZ

/-- `update_suffStats` reads `self.Z`, `self.W` and `self.suff_stats`. -/
def attrUpdateSuff (a : BKAttrs) : Except String BKAttrs :=
  if a.hasLatent && a.hasSuff then Except.ok a
  else Except.error ("AttributeError")

/-- A run of sweeps; the first failure aborts the call. -/
def attrCyclesN : ℕ → BKAttrs → Except String BKAttrs
  | 0, a => Except.ok a
  | m + 1, a => (attrCycle a).bind (attrCyclesN m)

/-- The post-burn-in loop of `gibbs` at attribute level. -/
def attrSampleSweeps (thin : ℕ) : List ℕ → BKAttrs → Except String BKAttrs
  | [], a => Except.ok a
  | g :: gs, a =>
    ((attrCycle a).bind fun a' =>
        if g % thin = 0 then attrUpdateSuff a' else Except.ok a').bind
      (attrSampleSweeps thin gs)

/-- `gibbs` with `mean_approx=False` at attribute level: `init_suffStats`,
`burnin` sweeps, then the thinned sampling loop. -/
def attrGibbsExact (burnin sample thin : ℕ) (a : BKAttrs) :
    Except String BKAttrs :=
  (attrCyclesN burnin (attrInitSuffStats a)).bind
    (attrSampleSweeps thin (List.range (sample * thin)))

/-!  ## Predicates named by the claims -/

/-- Claim C2's invariant: wherever `SCexpr[l,i] > 0`, the dropout indicator
`S[l,i]` is pinned to 1. -/
def SC.pinnedS (sc : SC L N K) : Prop :=
  ∀ l i, 0 < sc.SCexpr l i → sc.S l i = 1

instance (sc : SC L N K) : Decidable sc.pinnedS :=
  inferInstanceAs (Decidable (∀ l i, 0 < sc.SCexpr l i → sc.S l i = 1))

/-- Claim C4's invariant: `sum_AS` is a faithful cache of
`sum_i A[i,G[l]]*S[l,i]`. -/
def SC.cacheOK (sc : SC L N K) : Prop :=
  ∀ l, sc.sum_AS l = ∑ i, sc.A i (sc.G l) * (sc.S l i : ℚ)

instance (sc : SC L N K) : Decidable sc.cacheOK :=
  inferInstanceAs (Decidable (∀ l, sc.sum_AS l = ∑ i, sc.A i (sc.G l) * (sc.S l i : ℚ)))

/-- Modelled from the spec: the Bernoulli success probability the spec
claims `draw_S` uses — `expit(psi_li)` when `sum_other` is exactly zero,
otherwise `expit(psi_li - R_l*log(1 + A_curr/sum_other))` where `R_l` is
cell `l`'s total read depth `sum_i SCexpr[l,i]`. -/
def specBernoulliProb (expit lg : ℚ → ℚ) (sc : SC L N K) (l : Fin L)
    (i : Fin N) : ℚ :=
  let A_curr := sc.A i (sc.G l)
  let sum_other := sc.sum_AS l - A_curr * (sc.S l i : ℚ)
  if sum_other = 0 then expit (sc.psi l i)
  else expit (sc.psi l i - (∑ x, (sc.SCexpr l x : ℚ)) * lg (1 + A_curr / sum_other))

/-!  ## Concrete instances used by the witnesses -/

/-- A small concrete bulk state (one sample, one gene, one type). -/
def bkEx : BK 1 1 1 :=
  { BKexpr := fun _ _ => 2
    iMarkers := none
    A := fun _ _ => 1
    alpha := fun _ => 1
    W := fun _ _ => 1
    Z := fun _ _ _ => 2
    AW := fun _ _ => 1
    suff := BK.zeroSuff }

/-- Concrete per-sweep randomness for `bkEx`: Dirichlet outcomes on the
simplex, multinomial outcomes summing to the observed count 2. -/
def bkRandEx : ℕ → BKRand 1 1 1 := fun _ => ⟨fun _ _ => 1, fun _ _ _ => 2⟩

/-- The bulk state `bkEx` with a marker hint at the single
(gene, type) coordinate. -/
def bkMark : BK 1 1 1 :=
  { bkEx with iMarkers := some [(0, 0)] }

/-- A small concrete single-cell state: one cell, two genes; gene 0 has no
reads (a dropout candidate), gene 1 has five reads. -/
def scEx : SC 1 2 1 :=
  { SCexpr := fun _ i => if i = 0 then 0 else 5
    G := fun _ => 0
    A := fun _ _ => 1 / 2
    pkappa := (0, 1)
    ptau := (0, 1)
    kappa := fun _ => 0
    tau := fun _ => 0
    S := fun _ i => if i = 0 then 0 else 1
    w := fun _ _ => 1
    psi := fun _ _ => 0
    sum_AS := fun _ => 1 / 2 }

/-- Concrete Bernoulli outcomes for `draw_S` on `scEx`. -/
def scZEx : Fin 1 → Fin 2 → ℕ := fun _ _ => 1

/-- Concrete per-sweep randomness for `scEx`. -/
def scRandEx : ℕ → SCRand 1 2 := fun _ => ⟨fun _ _ => 1, fun _ _ => 1, fun _ => (0, 0)⟩

/-- A state on which `draw_kappa_tau`'s determinant is exactly zero: one
gene with Polya-Gamma weight `-1/2`, profile entry 1 and both prior
variances 1 gives `det = (1/2)*(1/2) - (-1/2)*(-1/2) = 0`. -/
def scDet0 : SC 1 1 1 :=
  { SCexpr := fun _ _ => 0
    G := fun _ => 0
    A := fun _ _ => 1
    pkappa := (0, 1)
    ptau := (0, 1)
    kappa := fun _ => 0
    tau := fun _ => 0
    S := fun _ _ => 0
    w := fun _ _ => -(1 / 2)
    psi := fun _ _ => 0
    sum_AS := fun _ => 0 }

/-!  ## Helper lemmas -/

/-- Dividing by an exactly-zero denominator yields a non-finite value,
whatever the numerator. -/
theorem odiv_some_zero (x : Option ℚ) : odiv x (some 0) = none := by
  cases x <;> simp [odiv]

/-- Every coordinate in `izero` has exactly zero observed expression. -/
theorem SC.mem_zeroList {L N K : ℕ} {sc : SC L N K} {p : Fin L × Fin N}
    (hp : p ∈ sc.zeroList) : sc.SCexpr p.1 p.2 = 0 := by
  unfold SC.zeroList at hp
  simp only [List.mem_flatMap, List.mem_map, List.mem_filter] at hp
  obtain ⟨l, -, i, ⟨-, hi⟩, rfl⟩ := hp
  simpa using hi

/-- The state component of the instrumented `draw_S` fold agrees with the
plain fold. -/
theorem draw_S_trace_foldl (expit lg : ℚ → ℚ) {L N K : ℕ}
    (z : Fin L → Fin N → ℕ) (ls : List (Fin L × Fin N)) :
    ∀ (st : SC L N K) (acc : List ((Fin L × Fin N) × ℚ)),
      (ls.foldl
        (fun a li => (SC.draw_S_step a.1 (z li.1 li.2) li,
          a.2 ++ [(li, SC.draw_S_prob expit lg a.1 li.1 li.2)])) (st, acc)).1 =
      ls.foldl (fun s li => SC.draw_S_step s (z li.1 li.2) li) st := by
  induction ls with
  | nil => intro st acc; rfl
  | cons hd tl ih => intro st acc; exact ih _ _

/-- `draw_S`'s fold preserves the pinned-`S` invariant: every coordinate it
writes has zero observed expression. -/
theorem c2_foldl_pinned {L N K : ℕ} (z : Fin L → Fin N → ℕ)
    (ls : List (Fin L × Fin N)) :
    ∀ (st : SC L N K), (∀ p ∈ ls, st.SCexpr p.1 p.2 = 0) → st.pinnedS →
      (ls.foldl (fun s li => SC.draw_S_step s (z li.1 li.2) li) st).pinnedS := by
  induction ls with
  | nil => exact fun st _ h => h
  | cons hd tl ih =>
    intro st hmem hpin
    apply ih
    · intro p hp
      exact hmem p (List.mem_cons_of_mem _ hp)
    · intro l i hpos
      show (if l = hd.1 ∧ i = hd.2 then z hd.1 hd.2 else st.S l i) = 1
      rcases Decidable.em (l = hd.1 ∧ i = hd.2) with hc | hc
      · exfalso
        have h0 := hmem hd (List.mem_cons_self _ _)
        have hpos' : 0 < st.SCexpr l i := hpos
        rw [hc.1, hc.2, h0] at hpos'
        exact Nat.lt_irrefl 0 hpos'
      · rw [if_neg hc]
        exact hpin l i hpos

/-- One `draw_S` loop body preserves the `sum_AS` cache invariant. -/
theorem draw_S_step_cacheOK {L N K : ℕ} (sc : SC L N K) (z : ℕ)
    (li : Fin L × Fin N) (h : sc.cacheOK) : (SC.draw_S_step sc z li).cacheOK := by
  intro l
  show (if l = li.1 then
          (sc.sum_AS li.1 - sc.A li.2 (sc.G li.1) * (sc.S li.1 li.2 : ℚ)) +
            sc.A li.2 (sc.G li.1) * (z : ℚ)
        else sc.sum_AS l) =
    ∑ i, sc.A i (sc.G l) * (((if l = li.1 ∧ i = li.2 then z else sc.S l i) : ℕ) : ℚ)
  rcases Decidable.em (l = li.1) with hl | hl
  · rw [if_pos hl, hl]
    simp only [eq_self_iff_true, true_and]
    have hsplit : ∀ f : Fin N → ℚ,
        ∑ i, f i = f li.2 + ∑ i in Finset.univ.erase li.2, f i :=
      fun f => (Finset.add_sum_erase _ f (Finset.mem_univ _)).symm
    rw [hsplit fun i => sc.A i (sc.G li.1) * (((if i = li.2 then z else sc.S li.1 i) : ℕ) : ℚ)]
    rw [if_pos rfl]
    have herase :
        (∑ i in Finset.univ.erase li.2,
          sc.A i (sc.G li.1) * (((if i = li.2 then z else sc.S li.1 i) : ℕ) : ℚ)) =
        ∑ i in Finset.univ.erase li.2, sc.A i (sc.G li.1) * (sc.S li.1 i : ℚ) := by
      refine Finset.sum_congr rfl fun i hi => ?_
      rw [if_neg (Finset.ne_of_mem_erase hi)]
    rw [herase, h li.1, hsplit fun i => sc.A i (sc.G li.1) * (sc.S li.1 i : ℚ)]
    ring
  · rw [if_neg hl]
    have hcond : ∀ i : Fin N, ¬(l = li.1 ∧ i = li.2) := fun i hc => hl hc.1
    have : (∑ i, sc.A i (sc.G l) * (((if l = li.1 ∧ i = li.2 then z else sc.S l i) : ℕ) : ℚ)) =
        ∑ i, sc.A i (sc.G l) * (sc.S l i : ℚ) := by
      refine Finset.sum_congr rfl fun i _ => ?_
      rw [if_neg (hcond i)]
    rw [this]
    exact h l

/-- `draw_S`'s fold preserves the `sum_AS` cache invariant. -/
theorem c4_foldl_cache {L N K : ℕ} (z : Fin L → Fin N → ℕ)
    (ls : List (Fin L × Fin N)) :
    ∀ st : SC L N K, st.cacheOK →
      (ls.foldl (fun s li => SC.draw_S_step s (z li.1 li.2) li) st).cacheOK := by
  induction ls with
  | nil => exact fun st h => h
  | cons hd tl ih => exact fun st h => ih _ (draw_S_step_cacheOK st _ hd h)

/-- On the explicit state `scDet0`, the determinant computed by
`draw_kappa_tau` is exactly zero: `(1/2)*(1/2) - (-1/2)*(-1/2) = 0`. -/
theorem scDet0_det : SC.ktDetAt scDet0 0 = some 0 := by
  simp only [SC.ktDetAt, ktDet, ktDiag0, ktDiag1, ktOffdiag, oadd, osub, omul, odiv,
    scDet0, Fin.sum_univ_one]
  norm_num

/-- The concrete state `scEx` satisfies the `sum_AS` cache invariant. -/
theorem scEx_cacheOK : scEx.cacheOK := by
  intro l
  norm_num [scEx, Fin.sum_univ_two]

/-!  ## Claims -/

/-- C1, counterexample to the claim as stated: on the explicit state
`scDet0` the determinant of the 2x2 precision matrix built by
`draw_kappa_tau` is exactly zero, yet the computation returns normally
(`Except.ok`) instead of failing with an error surfaced to the caller. -/
theorem c1_claim_counterexample :
    SC.ktDetAt scDet0 0 = some 0 ∧
      (SC.draw_kappa_tau_comp scDet0 0).isOk = true := by
  exact ⟨scDet0_det, rfl⟩

/-- C1 (amended): the division by the determinant in
`SingleCellSampler.draw_kappa_tau` is not guarded at all: the code divides
by the determinant unconditionally, and whenever the determinant is zero
the call still returns normally, with every entry of the computed
covariance matrix non-finite (inf/NaN), rather than failing with an error
surfaced to the caller. -/
theorem c1_unguarded_det_division {L N K : ℕ} (sc : SC L N K) (l : Fin L)
    (h : sc.ktDetAt l = some 0) :
    ∃ kt, sc.draw_kappa_tau_comp l = Except.ok kt ∧
      kt.s00 = none ∧ kt.s01 = none ∧ kt.s10 = none ∧ kt.s11 = none := by
  rw [SC.ktDetAt] at h
  refine ⟨_, rfl, ?_, ?_, ?_, ?_⟩ <;>
    simp only [ktOf] <;> rw [h] <;> exact odiv_some_zero _

/-- Witness for C1's amended theorem at the concrete state `scDet0`. -/
theorem c1_unguarded_det_division_witness :
    SC.ktDetAt scDet0 0 = some 0 ∧
      ∃ kt, SC.draw_kappa_tau_comp scDet0 0 = Except.ok kt ∧
        kt.s00 = none ∧ kt.s01 = none ∧ kt.s10 = none ∧ kt.s11 = none :=
  ⟨scDet0_det, c1_unguarded_det_division scDet0 0 scDet0_det⟩

/-- C2: `S` is pinned to 1 wherever `SCexpr > 0`: immediately after
`init_gibbs`, preserved by every `draw_S` call (which only resamples
coordinates where `SCexpr` is exactly zero), preserved by every
`gibbs_cycle`, and holding after every number of sweeps of any `gibbs`
call. -/
theorem c2_S_pinned {L N K : ℕ} :
    (∀ (sc : SC L N K) coin, (sc.init_gibbs coin).pinnedS) ∧
    (∀ (sc : SC L N K) z, sc.pinnedS → (sc.draw_S z).pinnedS) ∧
    (∀ (sc : SC L N K) r, sc.pinnedS → (sc.gibbs_cycle r).pinnedS) ∧
    (∀ (sc : SC L N K) coin rand m, (sc.gibbs_state coin rand m).pinnedS) := by
  have hinit : ∀ (sc : SC L N K) coin, (sc.init_gibbs coin).pinnedS := by
    intro sc coin l i hpos
    show (if 0 < sc.SCexpr l i then 1 else coin l i) = 1
    exact if_pos hpos
  have hdraw : ∀ (sc : SC L N K) z, sc.pinnedS → (sc.draw_S z).pinnedS := by
    intro sc z hpin
    exact c2_foldl_pinned z sc.zeroList sc (fun p hp => SC.mem_zeroList hp) hpin
  have hcycle : ∀ (sc : SC L N K) r, sc.pinnedS → (sc.gibbs_cycle r).pinnedS := by
    intro sc r hpin
    exact hdraw (sc.draw_w r.rW) r.rS hpin
  refine ⟨hinit, hdraw, hcycle, ?_⟩
  intro sc coin rand m
  induction m with
  | zero => exact hinit sc coin
  | succ m ih => exact hcycle _ (rand m) ih

/-- Witness for C2 at the concrete state `scEx`. -/
theorem c2_S_pinned_witness :
    scEx.pinnedS ∧ (scEx.draw_S scZEx).pinnedS :=
  ⟨by decide, c2_S_pinned.2.1 scEx scZEx (by decide)⟩

/-- C3: at a coordinate with `SCexpr[l,i] == 0`, the Bernoulli success
probability computed by `draw_S` equals the spec's formula —
`expit(psi_li)` when `sum_other = sum_AS[l] - A_curr*S[l,i]` is exactly
zero, else `expit(psi_li - R_l*log(1 + A_curr/sum_other))` with `R_l`
cell `l`'s total read depth — and immediately after the draw `sum_AS[l]`
equals `sum_other + A_curr*S[l,i]` with the freshly drawn `S[l,i]`; the
instrumented fold recording those probabilities computes the same state
as `draw_S`. -/
theorem c3_draw_S_formula (expit lg : ℚ → ℚ) {L N K : ℕ} (sc : SC L N K)
    (z : Fin L → Fin N → ℕ) (l : Fin L) (i : Fin N)
    (h : sc.SCexpr l i = 0) :
    SC.draw_S_prob expit lg sc l i = specBernoulliProb expit lg sc l i ∧
    (SC.draw_S_step sc (z l i) (l, i)).sum_AS l =
      (sc.sum_AS l - sc.A i (sc.G l) * (sc.S l i : ℚ)) +
        sc.A i (sc.G l) * ((SC.draw_S_step sc (z l i) (l, i)).S l i : ℚ) ∧
    (SC.draw_S_trace expit lg sc z).1 = sc.draw_S z := by
  refine ⟨?_, ?_, ?_⟩
  · simp only [SC.draw_S_prob, specBernoulliProb, SC.SCrd, Nat.cast_sum]
  · show (if l = l then _ else sc.sum_AS l) = _
    rw [if_pos rfl]
    show _ = _ + sc.A i (sc.G l) * (((if l = l ∧ i = i then z l i else sc.S l i) : ℕ) : ℚ)
    rw [if_pos ⟨rfl, rfl⟩]
  · exact draw_S_trace_foldl expit lg z sc.zeroList sc []

/-- Witness for C3 at the concrete state `scEx`, coordinate `(0,0)`. -/
theorem c3_draw_S_formula_witness :
    scEx.SCexpr 0 0 = 0 ∧
      (SC.draw_S_prob id id scEx 0 0 = specBernoulliProb id id scEx 0 0 ∧
       (SC.draw_S_step scEx (scZEx 0 0) (0, 0)).sum_AS 0 =
         (scEx.sum_AS 0 - scEx.A 0 (scEx.G 0) * (scEx.S 0 0 : ℚ)) +
           scEx.A 0 (scEx.G 0) * ((SC.draw_S_step scEx (scZEx 0 0) (0, 0)).S 0 0 : ℚ) ∧
       (SC.draw_S_trace id id scEx scZEx).1 = scEx.draw_S scZEx) :=
  ⟨by decide, c3_draw_S_formula id id scEx scZEx 0 0 (by decide)⟩

/-- C4: `sum_AS` is a faithful cache of `sum_i A[i,G[l]]*S[l,i]`: it holds
immediately after `init_gibbs`, it is preserved by every `draw_S` call, and
`update_parameters` re-establishes it under the newly installed `A` while
leaving `S`, `kappa`, `tau` and `w` unchanged and recomputing `psi` under
the new `A`. -/
theorem c4_sum_AS_cache {L N K : ℕ} :
    (∀ (sc : SC L N K) coin, (sc.init_gibbs coin).cacheOK) ∧
    (∀ (sc : SC L N K) z, sc.cacheOK → (sc.draw_S z).cacheOK) ∧
    (∀ (sc : SC L N K) A' pk' pt',
      (sc.update_parameters A' pk' pt').cacheOK ∧
      (sc.update_parameters A' pk' pt').S = sc.S ∧
      (sc.update_parameters A' pk' pt').kappa = sc.kappa ∧
      (sc.update_parameters A' pk' pt').tau = sc.tau ∧
      (sc.update_parameters A' pk' pt').w = sc.w ∧
      (sc.update_parameters A' pk' pt').psi =
        fun l i => sc.kappa l + sc.tau l * A' i (sc.G l)) := by
  refine ⟨?_, ?_, ?_⟩
  · intro sc coin l
    rfl
  · intro sc z h
    exact c4_foldl_cache z sc.zeroList sc h
  · intro sc A' pk' pt'
    exact ⟨fun l => rfl, rfl, rfl, rfl, rfl, rfl⟩

/-- Witness for C4 at the concrete state `scEx`. -/
theorem c4_sum_AS_cache_witness :
    scEx.cacheOK ∧ (scEx.draw_S scZEx).cacheOK :=
  ⟨scEx_cacheOK, c4_sum_AS_cache.2.1 scEx scZEx scEx_cacheOK⟩

/-- C6: `BulkSampler.gibbs` with `mean_approx=true` resets the
accumulators, performs exactly one `get_nmf_W` update of the carried-over
`W`, then one `draw_Z_mean`, then one `update_suffStats` with sample count
1 and makes no stochastic sweep; the `burnin`, `sample`, `thin` arguments
and the randomness stream have no effect on the result. -/
theorem c6_mean_approx_path {M N K : ℕ} (bk : BK M N K)
    (burnin sample thin burnin' sample' thin' : ℕ)
    (rand rand' : ℕ → BKRand M N K) (lg : ℚ → ℚ) :
    bk.gibbs burnin sample thin true rand lg =
      (BK.update_suffStats lg 1 (BK.draw_Z_mean (BK.get_nmf_W (BK.init_suffStats bk))), 1) ∧
    bk.gibbs burnin sample thin true rand lg =
      bk.gibbs burnin' sample' thin' true rand' lg ∧
    (BK.init_suffStats bk).W = bk.W ∧
    (bk.gibbs burnin sample thin true rand lg).1.W =
      (BK.get_nmf_W (BK.init_suffStats bk)).W := by
  exact ⟨rfl, rfl, rfl, rfl⟩

/-- C8: `BulkSampler.update_parameters(A, alpha)` installs value copies of
its arguments and leaves everything else — `W`, `Z`, the cached `AW`, all
four accumulators, and the construction data — unchanged. -/
theorem c8_update_parameters_frame {M N K : ℕ} (bk : BK M N K)
    (A' : Fin N → Fin K → ℚ) (alpha' : Fin K → ℚ) :
    (bk.update_parameters A' alpha').A = A' ∧
    (bk.update_parameters A' alpha').alpha = alpha' ∧
    (bk.update_parameters A' alpha').W = bk.W ∧
    (bk.update_parameters A' alpha').Z = bk.Z ∧
    (bk.update_parameters A' alpha').AW = bk.AW ∧
    (bk.update_parameters A' alpha').suff = bk.suff ∧
    (bk.update_parameters A' alpha').BKexpr = bk.BKexpr ∧
    (bk.update_parameters A' alpha').iMarkers = bk.iMarkers := by
  exact ⟨rfl, rfl, rfl, rfl, rfl, rfl, rfl, rfl⟩

/-- The marker-seeding loop of `init_gibbs` sets exactly the listed
(gene, type) columns, the last write winning — and every write to a given
coordinate writes the same value, so membership characterizes the result. -/
theorem applyMarkers_eq {M N K : ℕ} (BKexpr : Fin M → Fin N → ℕ)
    (alpha : Fin K → ℚ) (ms : List (Fin N × Fin K)) :
    ∀ (Z : Fin M → Fin N → Fin K → ℚ) (j : Fin M) (i : Fin N) (k : Fin K),
      applyMarkers BKexpr alpha ms Z j i k =
        if (i, k) ∈ ms then (BKexpr j i : ℚ) + alpha k else Z j i k := by
  induction ms with
  | nil =>
    intro Z j i k
    simp [applyMarkers]
  | cons m ms ih =>
    intro Z j i k
    rw [applyMarkers, ih]
    rcases Decidable.em ((i, k) ∈ ms) with hm | hm
    · rw [if_pos hm, if_pos (List.mem_cons_of_mem _ hm)]
    · rw [if_neg hm]
      rcases Decidable.em (i = m.1 ∧ k = m.2) with he | he
      · rw [if_pos he, if_pos]
        rw [List.mem_cons]
        exact Or.inl (Prod.ext_iff.mpr ⟨he.1, he.2⟩)
      · rw [if_neg he, if_neg]
        intro hc
        rcases List.mem_cons.mp hc with heq | hmem
        · exact he (Prod.ext_iff.mp heq)
        · exact hm hmem

/-- C9: `BulkSampler.init_gibbs` without marker hints sets `Z` to zero and
`W` uniformly to `1/K`; with marker hints it sets `Z[:,i,k]` to
`BKexpr[:,i] + alpha[k]` exactly at the listed coordinates and zero
elsewhere, and sets `W` to the column-normalization of the gene-marginal
sums of `Z` (each column summing to 1 whenever its normalizer is
nonzero). -/
theorem c9_init_gibbs {M N K : ℕ} (bk : BK M N K) :
    (bk.iMarkers = none →
      bk.init_gibbs.Z = (fun _ _ _ => (0 : ℚ)) ∧
      bk.init_gibbs.W = (fun _ _ => 1 / (K : ℚ))) ∧
    (∀ ms, bk.iMarkers = some ms →
      (∀ j i k, bk.init_gibbs.Z j i k =
        if (i, k) ∈ ms then (bk.BKexpr j i : ℚ) + bk.alpha k else 0) ∧
      (∀ k j, bk.init_gibbs.W k j =
        (∑ i, bk.init_gibbs.Z j i k) / ∑ x, ∑ i, bk.init_gibbs.Z j i x) ∧
      (∀ j, (∑ x, ∑ i, bk.init_gibbs.Z j i x) ≠ 0 →
        ∑ k, bk.init_gibbs.W k j = 1)) := by
  constructor
  · intro h
    rw [BK.init_gibbs, h]
    exact ⟨rfl, rfl⟩
  · intro ms h
    have hZ : bk.init_gibbs.Z =
        applyMarkers bk.BKexpr bk.alpha ms (fun _ _ _ => 0) := by
      rw [BK.init_gibbs, h]
    have hW : bk.init_gibbs.W = fun k j =>
        (∑ i, applyMarkers bk.BKexpr bk.alpha ms (fun _ _ _ => 0) j i k) /
          ∑ x, ∑ i, applyMarkers bk.BKexpr bk.alpha ms (fun _ _ _ => 0) j i x := by
      rw [BK.init_gibbs, h]
    refine ⟨?_, ?_, ?_⟩
    · intro j i k
      rw [hZ, applyMarkers_eq]
    · intro k j
      rw [hW, hZ]
    · intro j hne
      have hsum : ∀ k, bk.init_gibbs.W k j =
          (∑ i, bk.init_gibbs.Z j i k) / ∑ x, ∑ i, bk.init_gibbs.Z j i x := by
        intro k
        rw [hW, hZ]
      calc
        ∑ k, bk.init_gibbs.W k j
            = (∑ k, ∑ i, bk.init_gibbs.Z j i k) /
                ∑ x, ∑ i, bk.init_gibbs.Z j i x := by
              rw [Finset.sum_congr rfl fun k _ => hsum k, Finset.sum_div]
        _ = 1 := div_self hne

/-- Witness for C9: with no markers, `bkEx`'s `Z` is zeroed; with the
marker list of `bkMark`, the normalizer is nonzero and the `W` columns sum
to 1. -/
theorem c9_init_gibbs_witness :
    bkEx.iMarkers = none ∧
    bkEx.init_gibbs.Z = (fun _ _ _ => (0 : ℚ)) ∧
    bkMark.iMarkers = some [(0, 0)] ∧
    (∑ x : Fin 1, ∑ i : Fin 1, bkMark.init_gibbs.Z 0 i x) ≠ 0 ∧
    ∑ k, bkMark.init_gibbs.W k 0 = 1 := by
  have hval : ∀ (i x : Fin 1), bkMark.init_gibbs.Z 0 i x = 3 := by
    intro i x
    rw [((c9_init_gibbs bkMark).2 [(0, 0)] rfl).1 0 i x]
    rw [if_pos (by rw [Fin.fin_one_eq_zero i, Fin.fin_one_eq_zero x]; exact List.mem_cons_self _ _)]
    norm_num [bkMark, bkEx]
  have hne : (∑ x : Fin 1, ∑ i : Fin 1, bkMark.init_gibbs.Z 0 i x) ≠ 0 := by
    rw [Fin.sum_univ_one, Fin.sum_univ_one, hval 0 0]
    norm_num
  exact ⟨rfl, ((c9_init_gibbs bkEx).1 rfl).1, rfl, hne,
    ((c9_init_gibbs bkMark).2 [(0, 0)] rfl).2.2 0 hne⟩

/-- A Gibbs sweep of the bulk chain never touches the accumulators. -/
theorem gibbs_cycle_suff {M N K : ℕ} (bk : BK M N K) (r : BKRand M N K) :
    (bk.gibbs_cycle r).suff = bk.suff := rfl

/-- Iterated sweeps never touch the accumulators. -/
theorem cycleIter_suff {M N K : ℕ} (rand : ℕ → BKRand M N K) (bk : BK M N K) :
    ∀ m, (BK.cycleIter rand bk m).suff = bk.suff := by
  intro m
  induction m with
  | zero => rfl
  | succ m ih => exact ih

/-- A Gibbs sweep commutes with overwriting the accumulators. -/
theorem gibbs_cycle_setSuff {M N K : ℕ} (bk : BK M N K) (r : BKRand M N K)
    (s : BKSuff M N K) :
    BK.gibbs_cycle { bk with suff := s } r = { bk.gibbs_cycle r with suff := s } := rfl

/-- Iterated sweeps commute with overwriting the accumulators. -/
theorem cycleIter_setSuff {M N K : ℕ} (rand : ℕ → BKRand M N K) (bk : BK M N K)
    (s : BKSuff M N K) :
    ∀ m, BK.cycleIter rand { bk with suff := s } m =
      { BK.cycleIter rand bk m with suff := s } := by
  intro m
  induction m with
  | zero => rfl
  | succ m ih =>
    show BK.gibbs_cycle (BK.cycleIter rand { bk with suff := s } m) (rand m) = _
    rw [ih, gibbs_cycle_setSuff]
    rfl

/-- The state held by the sampling loop is the pure-sweep trajectory,
carrying some accumulator contents. -/
theorem sampleLoop_latent {M N K : ℕ} (lg : ℚ → ℚ) (rand : ℕ → BKRand M N K)
    (burnin sample thin : ℕ) (b0 : BK M N K) (g : ℕ) :
    (BK.sampleLoop lg rand burnin sample thin (BK.cycleIter rand b0 burnin) g).1 =
      { BK.cycleIter rand b0 (burnin + g) with
        suff := (BK.sampleLoop lg rand burnin sample thin
          (BK.cycleIter rand b0 burnin) g).1.suff } := by
  induction g with
  | zero => rfl
  | succ g ih =>
    have hstep : BK.sampleLoop lg rand burnin sample thin
        (BK.cycleIter rand b0 burnin) (g + 1) =
        if g % thin = 0 then
          (BK.update_suffStats lg sample
              (BK.gibbs_cycle (BK.sampleLoop lg rand burnin sample thin
                (BK.cycleIter rand b0 burnin) g).1 (rand (burnin + g))),
            (BK.sampleLoop lg rand burnin sample thin
              (BK.cycleIter rand b0 burnin) g).2 + 1)
        else
          (BK.gibbs_cycle (BK.sampleLoop lg rand burnin sample thin
              (BK.cycleIter rand b0 burnin) g).1 (rand (burnin + g)),
            (BK.sampleLoop lg rand burnin sample thin
              (BK.cycleIter rand b0 burnin) g).2) := rfl
    rw [hstep]
    rcases Decidable.em (g % thin = 0) with hc | hc
    · rw [if_pos hc, ih, gibbs_cycle_setSuff]
      rfl
    · rw [if_neg hc, ih, gibbs_cycle_setSuff]
      rfl

/-- The ghost counter counts exactly the retained sweep indices. -/
theorem sampleLoop_count {M N K : ℕ} (lg : ℚ → ℚ) (rand : ℕ → BKRand M N K)
    (burnin sample thin : ℕ) (bkb : BK M N K) (g : ℕ) :
    (BK.sampleLoop lg rand burnin sample thin bkb g).2 =
      ((Finset.range g).filter fun x => x % thin = 0).card := by
  induction g with
  | zero => rfl
  | succ g ih =>
    have hstep : BK.sampleLoop lg rand burnin sample thin bkb (g + 1) =
        if g % thin = 0 then
          (BK.update_suffStats lg sample
              (BK.gibbs_cycle (BK.sampleLoop lg rand burnin sample thin bkb g).1
                (rand (burnin + g))),
            (BK.sampleLoop lg rand burnin sample thin bkb g).2 + 1)
        else
          (BK.gibbs_cycle (BK.sampleLoop lg rand burnin sample thin bkb g).1
              (rand (burnin + g)),
            (BK.sampleLoop lg rand burnin sample thin bkb g).2) := rfl
    rw [hstep, Finset.range_succ, Finset.filter_insert]
    rcases Decidable.em (g % thin = 0) with hc | hc
    · rw [if_pos hc, if_pos hc,
        Finset.card_insert_of_not_mem (by simp)]
      show (BK.sampleLoop lg rand burnin sample thin bkb g).2 + 1 = _ + 1
      rw [ih]
    · rw [if_neg hc, if_neg hc]
      exact ih

/-- Generic accumulation lemma: any accumulator projection `P` that
`update_suffStats` advances by `F bk / sample`, where `F` ignores the
accumulators, ends as the base value plus the sum of `F` over the retained
sweeps. -/
theorem sampleLoop_suff_acc {M N K : ℕ} (lg : ℚ → ℚ) (rand : ℕ → BKRand M N K)
    (burnin sample thin : ℕ) (b0 : BK M N K)
    (P : BKSuff M N K → ℚ) (F : BK M N K → ℚ)
    (hPF : ∀ bk : BK M N K,
      P (BK.update_suffStats lg sample bk).suff = P bk.suff + F bk / (sample : ℚ))
    (hFs : ∀ (bk : BK M N K) (s : BKSuff M N K), F { bk with suff := s } = F bk)
    (g : ℕ) :
    P (BK.sampleLoop lg rand burnin sample thin
        (BK.cycleIter rand b0 burnin) g).1.suff =
      P b0.suff + ∑ g' in (Finset.range g).filter fun x => x % thin = 0,
        F (BK.cycleIter rand b0 (burnin + g' + 1)) / (sample : ℚ) := by
  induction g with
  | zero =>
    rw [Finset.range_zero, Finset.filter_empty, Finset.sum_empty, add_zero]
    show P (BK.cycleIter rand b0 burnin).suff = P b0.suff
    rw [cycleIter_suff]
  | succ g ih =>
    have hstep : BK.sampleLoop lg rand burnin sample thin
        (BK.cycleIter rand b0 burnin) (g + 1) =
        if g % thin = 0 then
          (BK.update_suffStats lg sample
              (BK.gibbs_cycle (BK.sampleLoop lg rand burnin sample thin
                (BK.cycleIter rand b0 burnin) g).1 (rand (burnin + g))),
            (BK.sampleLoop lg rand burnin sample thin
              (BK.cycleIter rand b0 burnin) g).2 + 1)
        else
          (BK.gibbs_cycle (BK.sampleLoop lg rand burnin sample thin
              (BK.cycleIter rand b0 burnin) g).1 (rand (burnin + g)),
            (BK.sampleLoop lg rand burnin sample thin
              (BK.cycleIter rand b0 burnin) g).2) := rfl
    rw [hstep, Finset.range_succ, Finset.filter_insert]
    rcases Decidable.em (g % thin = 0) with hc | hc
    · rw [if_pos hc, if_pos hc, Finset.sum_insert (by simp)]
      show P (BK.update_suffStats lg sample
          (BK.gibbs_cycle (BK.sampleLoop lg rand burnin sample thin
            (BK.cycleIter rand b0 burnin) g).1 (rand (burnin + g)))).suff = _
      rw [hPF, gibbs_cycle_suff, ih, sampleLoop_latent, gibbs_cycle_setSuff, hFs]
      show P b0.suff + _ + F (BK.cycleIter rand b0 (burnin + g + 1)) / (sample : ℚ) = _
      ring
    · rw [if_neg hc, if_neg hc]
      show P (BK.gibbs_cycle (BK.sampleLoop lg rand burnin sample thin
          (BK.cycleIter rand b0 burnin) g).1 (rand (burnin + g))).suff = _
      rw [gibbs_cycle_suff, ih]

/-- With `thin >= 1`, the retained sweep indices below `sample*thin` are
exactly the multiples `s*thin` for `s < sample`. -/
theorem filter_mod_eq_image (sample thin : ℕ) (ht : 1 ≤ thin) :
    ((Finset.range (sample * thin)).filter fun g => g % thin = 0) =
      (Finset.range sample).image fun s => s * thin := by
  ext g
  simp only [Finset.mem_filter, Finset.mem_range, Finset.mem_image]
  constructor
  · rintro ⟨hlt, hmod⟩
    exact ⟨g / thin, (Nat.div_lt_iff_lt_mul ht).mpr hlt,
      Nat.div_mul_cancel (Nat.dvd_of_mod_eq_zero hmod)⟩
  · rintro ⟨s, hs, rfl⟩
    exact ⟨(Nat.mul_lt_mul_right ht).mpr hs, Nat.mul_mod_left s thin⟩

/-- C5: for `burnin >= 0`, `sample >= 1`, `thin >= 1`, the exact-Gibbs mode
of `BulkSampler.gibbs` accumulates nothing during burn-in, calls
`update_suffStats(sample)` exactly `sample` times — after the post-burn-in
sweeps of index `s*thin` for `s < sample`, the first after index 0 — and
each of the four accumulators ends equal to the arithmetic mean of its
statistic over those `sample` retained sweeps. -/
theorem c5_exact_gibbs_accumulators {M N K : ℕ} (bk : BK M N K)
    (burnin sample thin : ℕ) (rand : ℕ → BKRand M N K) (lg : ℚ → ℚ)
    (hs : 1 ≤ sample) (ht : 1 ≤ thin) :
    (bk.gibbs burnin sample thin false rand lg).2 = sample ∧
    (BK.cycleIter rand (BK.init_suffStats bk) burnin).suff = BK.zeroSuff ∧
    (∀ i k, (bk.gibbs burnin sample thin false rand lg).1.suff.exp_Zik i k =
      (∑ s in Finset.range sample, BK.statZik
        (BK.cycleIter rand (BK.init_suffStats bk) (burnin + s * thin + 1)) i k) /
        (sample : ℚ)) ∧
    (∀ j k, (bk.gibbs burnin sample thin false rand lg).1.suff.exp_Zjk j k =
      (∑ s in Finset.range sample, BK.statZjk
        (BK.cycleIter rand (BK.init_suffStats bk) (burnin + s * thin + 1)) j k) /
        (sample : ℚ)) ∧
    (∀ k j, (bk.gibbs burnin sample thin false rand lg).1.suff.exp_logW k j =
      (∑ s in Finset.range sample, lg
        ((BK.cycleIter rand (BK.init_suffStats bk) (burnin + s * thin + 1)).W k j)) /
        (sample : ℚ)) ∧
    (∀ k j, (bk.gibbs burnin sample thin false rand lg).1.suff.exp_W k j =
      (∑ s in Finset.range sample,
        (BK.cycleIter rand (BK.init_suffStats bk) (burnin + s * thin + 1)).W k j) /
        (sample : ℚ)) := by
  have hg : bk.gibbs burnin sample thin false rand lg =
      BK.sampleLoop lg rand burnin sample thin
        (BK.cycleIter rand (BK.init_suffStats bk) burnin) (sample * thin) := rfl
  have hinj : ∀ a ∈ Finset.range sample, ∀ b ∈ Finset.range sample,
      a * thin = b * thin → a = b :=
    fun a _ b _ hab => Nat.eq_of_mul_eq_mul_right ht hab
  have hmean : ∀ (P : BKSuff M N K → ℚ) (F : BK M N K → ℚ),
      (∀ b : BK M N K, P (BK.update_suffStats lg sample b).suff =
        P b.suff + F b / (sample : ℚ)) →
      (∀ (b : BK M N K) (s : BKSuff M N K), F { b with suff := s } = F b) →
      P BK.zeroSuff = 0 →
      P (bk.gibbs burnin sample thin false rand lg).1.suff =
        (∑ s in Finset.range sample,
          F (BK.cycleIter rand (BK.init_suffStats bk) (burnin + s * thin + 1))) /
          (sample : ℚ) := by
    intro P F hPF hFs hP0
    rw [hg]
    refine (sampleLoop_suff_acc lg rand burnin sample thin
      (BK.init_suffStats bk) P F hPF hFs (sample * thin)).trans ?_
    have hbase : P (BK.init_suffStats bk).suff = 0 := hP0
    rw [hbase, zero_add, filter_mod_eq_image sample thin ht,
      Finset.sum_image hinj, Finset.sum_div]
  refine ⟨?_, ?_, ?_, ?_, ?_, ?_⟩
  · rw [hg, sampleLoop_count, filter_mod_eq_image sample thin ht,
      Finset.card_image_of_injOn hinj, Finset.card_range]
  · rw [cycleIter_suff]
    rfl
  · intro i k
    exact hmean (fun s => s.exp_Zik i k) (fun b => BK.statZik b i k)
      (fun b => rfl) (fun b s => rfl) rfl
  · intro j k
    exact hmean (fun s => s.exp_Zjk j k) (fun b => BK.statZjk b j k)
      (fun b => rfl) (fun b s => rfl) rfl
  · intro k j
    exact hmean (fun s => s.exp_logW k j) (fun b => lg (b.W k j))
      (fun b => rfl) (fun b s => rfl) rfl
  · intro k j
    exact hmean (fun s => s.exp_W k j) (fun b => b.W k j)
      (fun b => rfl) (fun b s => rfl) rfl

/-- Witness for C5 on `bkEx` with `burnin=0`, `sample=1`, `thin=1`. -/
theorem c5_exact_gibbs_accumulators_witness :
    1 ≤ 1 ∧
    ((bkEx.gibbs 0 1 1 false bkRandEx id).2 = 1 ∧
     (BK.cycleIter bkRandEx (BK.init_suffStats bkEx) 0).suff = BK.zeroSuff ∧
     (∀ i k, (bkEx.gibbs 0 1 1 false bkRandEx id).1.suff.exp_Zik i k =
       (∑ s in Finset.range 1, BK.statZik
         (BK.cycleIter bkRandEx (BK.init_suffStats bkEx) (0 + s * 1 + 1)) i k) /
         ((1 : ℕ) : ℚ)) ∧
     (∀ j k, (bkEx.gibbs 0 1 1 false bkRandEx id).1.suff.exp_Zjk j k =
       (∑ s in Finset.range 1, BK.statZjk
         (BK.cycleIter bkRandEx (BK.init_suffStats bkEx) (0 + s * 1 + 1)) j k) /
         ((1 : ℕ) : ℚ)) ∧
     (∀ k j, (bkEx.gibbs 0 1 1 false bkRandEx id).1.suff.exp_logW k j =
       (∑ s in Finset.range 1, id
         ((BK.cycleIter bkRandEx (BK.init_suffStats bkEx) (0 + s * 1 + 1)).W k j)) /
         ((1 : ℕ) : ℚ)) ∧
     (∀ k j, (bkEx.gibbs 0 1 1 false bkRandEx id).1.suff.exp_W k j =
       (∑ s in Finset.range 1,
         (BK.cycleIter bkRandEx (BK.init_suffStats bkEx) (0 + s * 1 + 1)).W k j) /
         ((1 : ℕ) : ℚ))) :=
  ⟨Nat.le_refl 1, c5_exact_gibbs_accumulators bkEx 0 1 1 bkRandEx id
    (Nat.le_refl 1) (Nat.le_refl 1)⟩

/-- C7: after every `BulkSampler.gibbs` call, in both modes, every fibre
`Z[j,i,:]` sums to `BKexpr[j,i]` and every column of `W` sums to 1 in exact
arithmetic — in the exact mode provided the Dirichlet and multinomial
oracles respect their supports and at least one sweep runs
(`sample, thin >= 1`); in the mean-approx mode provided the NMF
normalizer columns and the recomputed `AW` entries are nonzero. -/
theorem c7_invariants {M N K : ℕ} (bk : BK M N K)
    (burnin sample thin : ℕ) (rand : ℕ → BKRand M N K) (lg : ℚ → ℚ) :
    (1 ≤ sample → 1 ≤ thin →
      (∀ m j, ∑ k, (rand m).rW j k = 1) →
      (∀ m j i, ∑ k, (rand m).rZ j i k = (bk.BKexpr j i : ℚ)) →
      (∀ j, ∑ k, (bk.gibbs burnin sample thin false rand lg).1.W k j = 1) ∧
      (∀ j i, ∑ k, (bk.gibbs burnin sample thin false rand lg).1.Z j i k =
        (bk.BKexpr j i : ℚ))) ∧
    ((∀ j, (∑ x, BK.nmfPre (BK.init_suffStats bk) x j) ≠ 0) →
      (∀ i j, (∑ x, bk.A i x * (BK.get_nmf_W (BK.init_suffStats bk)).W x j) ≠ 0) →
      (∀ j, ∑ k, (bk.gibbs burnin sample thin true rand lg).1.W k j = 1) ∧
      (∀ j i, ∑ k, (bk.gibbs burnin sample thin true rand lg).1.Z j i k =
        (bk.BKexpr j i : ℚ))) := by
  constructor
  · intro hs ht hW1 hZ1
    have hpos : 0 < burnin + sample * thin :=
      Nat.add_pos_right burnin (Nat.mul_pos hs ht)
    obtain ⟨m, hm⟩ := Nat.exists_eq_succ_of_ne_zero (Nat.pos_iff_ne_zero.mp hpos)
    have hW : (bk.gibbs burnin sample thin false rand lg).1.W =
        (BK.cycleIter rand (BK.init_suffStats bk) (burnin + sample * thin)).W := by
      rw [show bk.gibbs burnin sample thin false rand lg =
        BK.sampleLoop lg rand burnin sample thin
          (BK.cycleIter rand (BK.init_suffStats bk) burnin) (sample * thin) from rfl,
        sampleLoop_latent]
    have hZ : (bk.gibbs burnin sample thin false rand lg).1.Z =
        (BK.cycleIter rand (BK.init_suffStats bk) (burnin + sample * thin)).Z := by
      rw [show bk.gibbs burnin sample thin false rand lg =
        BK.sampleLoop lg rand burnin sample thin
          (BK.cycleIter rand (BK.init_suffStats bk) burnin) (sample * thin) from rfl,
        sampleLoop_latent]
    constructor
    · intro j
      rw [hW, hm]
      exact hW1 m j
    · intro j i
      rw [hZ, hm]
      exact hZ1 m j i
  · intro hcol hAW
    constructor
    · intro j
      show (∑ k, BK.nmfPre (BK.init_suffStats bk) k j /
        ∑ x, BK.nmfPre (BK.init_suffStats bk) x j) = 1
      rw [← Finset.sum_div, div_self (hcol j)]
    · intro j i
      show (∑ k, (BK.get_nmf_W (BK.init_suffStats bk)).W k j * bk.A i k *
          (bk.BKexpr j i : ℚ) /
          ∑ x, bk.A i x * (BK.get_nmf_W (BK.init_suffStats bk)).W x j) =
        (bk.BKexpr j i : ℚ)
      rw [← Finset.sum_div, ← Finset.sum_mul]
      have hswap : (∑ k, (BK.get_nmf_W (BK.init_suffStats bk)).W k j * bk.A i k) =
          ∑ x, bk.A i x * (BK.get_nmf_W (BK.init_suffStats bk)).W x j :=
        Finset.sum_congr rfl fun k _ => mul_comm _ _
      rw [hswap, mul_comm, mul_div_assoc, div_self (hAW i j), mul_one]

/-- Witness for C7 on `bkEx` with `burnin=0`, `sample=1`, `thin=1`, in both
modes. -/
theorem c7_invariants_witness :
    1 ≤ 1 ∧
    ((∀ j, ∑ k, (bkEx.gibbs 0 1 1 false bkRandEx id).1.W k j = 1) ∧
     (∀ j i, ∑ k, (bkEx.gibbs 0 1 1 false bkRandEx id).1.Z j i k =
       (bkEx.BKexpr j i : ℚ))) ∧
    ((∀ j, ∑ k, (bkEx.gibbs 0 1 1 true bkRandEx id).1.W k j = 1) ∧
     (∀ j i, ∑ k, (bkEx.gibbs 0 1 1 true bkRandEx id).1.Z j i k =
       (bkEx.BKexpr j i : ℚ))) := by
  have h := c7_invariants bkEx 0 1 1 bkRandEx id
  refine ⟨Nat.le_refl 1, ?_, ?_⟩
  · exact h.1 (Nat.le_refl 1) (Nat.le_refl 1)
      (fun m j => by norm_num [bkRandEx, Fin.sum_univ_one])
      (fun m j i => by norm_num [bkRandEx, bkEx, Fin.sum_univ_one])
  · exact h.2
      (fun j => by
        norm_num [BK.nmfPre, BK.init_suffStats, bkEx, Fin.sum_univ_one])
      (fun i j => by
        norm_num [BK.get_nmf_W, BK.nmfPre, BK.init_suffStats, bkEx,
          Fin.sum_univ_one])

/-- C10: `BulkSampler.gibbs` zeroes the four accumulators at the start of
every call in both modes (its result does not depend on the accumulators at
entry), neither mode reinitializes the latent state — the exact mode
continues the pure sweep trajectory started from the entry `W` and `Z` —
and, at attribute level, an exact-mode `gibbs` on a freshly constructed
object (no prior `init_gibbs`) fails as soon as it runs at least one
sweep. -/
theorem c10_gibbs_lifecycle {M N K : ℕ} (bk : BK M N K)
    (burnin sample thin : ℕ) (mode : Bool) (rand : ℕ → BKRand M N K)
    (lg : ℚ → ℚ) (s' : BKSuff M N K) :
    bk.gibbs burnin sample thin mode rand lg =
      BK.gibbs { bk with suff := s' } burnin sample thin mode rand lg ∧
    (bk.gibbs burnin sample thin false rand lg).1.W =
      (BK.cycleIter rand bk (burnin + sample * thin)).W ∧
    (bk.gibbs burnin sample thin false rand lg).1.Z =
      (BK.cycleIter rand bk (burnin + sample * thin)).Z ∧
    (1 ≤ burnin + sample * thin →
      (attrGibbsExact burnin sample thin BKAttrs.new).isOk = false) := by
  refine ⟨rfl, ?_, ?_, ?_⟩
  · rw [show bk.gibbs burnin sample thin false rand lg =
      BK.sampleLoop lg rand burnin sample thin
        (BK.cycleIter rand (BK.init_suffStats bk) burnin) (sample * thin) from rfl,
      sampleLoop_latent]
    show (BK.cycleIter rand (BK.init_suffStats bk) (burnin + sample * thin)).W = _
    rw [show BK.init_suffStats bk = { bk with suff := BK.zeroSuff } from rfl,
      cycleIter_setSuff]
  · rw [show bk.gibbs burnin sample thin false rand lg =
      BK.sampleLoop lg rand burnin sample thin
        (BK.cycleIter rand (BK.init_suffStats bk) burnin) (sample * thin) from rfl,
      sampleLoop_latent]
    show (BK.cycleIter rand (BK.init_suffStats bk) (burnin + sample * thin)).Z = _
    rw [show BK.init_suffStats bk = { bk with suff := BK.zeroSuff } from rfl,
      cycleIter_setSuff]
  · intro h1
    rcases burnin with _ | b
    · have hst : sample * thin ≠ 0 := by
        intro h0
        rw [Nat.zero_add, h0] at h1
        exact Nat.not_succ_le_zero 0 h1
      obtain ⟨m, hm⟩ := Nat.exists_eq_succ_of_ne_zero hst
      simp only [attrGibbsExact]
      rw [hm, List.range_succ_eq_map]
      rfl
    · rfl

/-- Witness for C10's attribute-level failure at `burnin=0`, `sample=1`,
`thin=1`. -/
theorem c10_gibbs_lifecycle_witness :
    1 ≤ 0 + 1 * 1 ∧ (attrGibbsExact 0 1 1 BKAttrs.new).isOk = false :=
  ⟨by decide,
    (c10_gibbs_lifecycle bkEx 0 1 1 false bkRandEx id BK.zeroSuff).2.2.2 (by decide)⟩

end URSM
